import Mathlib

/-!
Shallow embedding of `src/hashmap.c`: a fixed-capacity open-addressing hash
map with linear probing, mapping integer keys to text values.  A slot is
"occupied" exactly when its stored value is non-empty (`string_empty` is the
occupancy test); there is no separate occupancy flag and no tombstone.

Modelling choices, each tied to the C source:
  * `HashMapKey` is `Nat`: the C hash is `(size_t)(key % hm->capacity)` and
    the spec pins the key domain to non-negative integers treated as unsigned.
  * `HashMapValue` is `List Char`: the `String` type of the repository is not
    under `src/`; the spec describes it only as a Text capability with
    copy-construction, destruction and an emptiness test (`string_empty`
    true iff the text holds no characters / the zero-initialised sentinel).
    A character list with `List.isEmpty` realises exactly that contract, and
    `(String){0}` is the empty list.
  * `pairs` is a `List HashMapPair` of length `capacity` (the `calloc`-ed
    slot array, all slots zero-initialised); slot reads go through `getD`.
  * The C probe loops run a pointer from the home slot, wrapping at the array
    end, for at most `capacity` steps; step `i` of the loop reads slot
    `(home + i) % capacity`.  They are modelled by `scanIdx`, which returns
    the first loop index satisfying the loop's stop condition.
  * `hash_map_insert`'s guard `hash_map_load_factor(map) >= 1` compares the
    real ratio `size / capacity` with 1, which for a positive capacity holds
    exactly when `capacity ≤ size` (`load_factor_ge_one_iff` below); the
    embedding uses the `Nat` comparison so that every definition computes.
  * `size_t` arithmetic: `size` only ever moves by `+ 1` / `- 1`, and every
    theorem that speaks about a decrement carries hypotheses under which the
    counter is positive, so `Nat` truncation never diverges from `size_t`.
  * Allocation failure of `malloc`/`calloc` is not modelled; `NULL` results
    of `hash_map_find` / `hash_map_first` / `hash_map_next_pair` are `none`,
    and the pair pointers handed out by the traversal API are slot indices.
-/

abbrev HashMapKey := Nat

abbrev HashMapValue := List Char

/-- Emptiness test of the Text capability: true iff the value holds no
characters (this is also the state of a zero-initialised `(String){0}`). -/
def string_empty (s : HashMapValue) : Bool := s.isEmpty

/-- One slot of the table: `typedef struct { HashMapKey key; HashMapValue value; }`. -/
structure HashMapPair where
  key : HashMapKey
  value : HashMapValue
deriving DecidableEq, Repr

/-- A zero-initialised slot, as produced by `calloc` and by `(String){0}`. -/
def emptyPair : HashMapPair := ⟨0, []⟩

/-- The hash map: `struct hash_map { size_t capacity; size_t size; HashMapPair *pairs; }`. -/
structure HashMap where
  capacity : Nat
  size : Nat
  pairs : List HashMapPair
deriving DecidableEq, Repr

/-- Read slot `j` of the table (the C code indexes `map->pairs[j]`). -/
def slotAt (m : HashMap) (j : Nat) : HashMapPair := m.pairs.getD j emptyPair

/-- `hash_map_hash`: `(size_t)(key % hm->capacity)`. -/
def hash_map_hash (m : HashMap) (key : HashMapKey) : Nat := key % m.capacity

/-- The slot index visited at step `i` of a probe loop that starts at the
home slot of `key` and wraps at the end of the array. -/
def probeIdx (m : HashMap) (key : HashMapKey) (i : Nat) : Nat :=
  (hash_map_hash m key + i) % m.capacity

/-- First index `t` in `[i, i + fuel)` with `p t = true`, scanning upward:
the skeleton of every bounded probe loop in the C file. -/
def scanIdx (p : Nat → Bool) : Nat → Nat → Option Nat
  | _, 0 => none
  | i, fuel + 1 => if p i then some i else scanIdx p (i + 1) fuel

/-- Stop condition of the loops in `hash_map_find` and `hash_map_remove`:
`pair->key == key && !string_empty(&pair->value)`. -/
def findMatch (m : HashMap) (key : HashMapKey) (j : Nat) : Bool :=
  (slotAt m j).key == key && !string_empty (slotAt m j).value

/-- The slot index at which the scan of `hash_map_find` stops, if any. -/
def findSlot (m : HashMap) (key : HashMapKey) : Option Nat :=
  (scanIdx (fun i => findMatch m key (probeIdx m key i)) 0 m.capacity).map
    (probeIdx m key)

/-- `hash_map_find`: probe up to `capacity` slots from the home slot; return
the value of the first non-empty slot whose key matches, else `NULL`. -/
def hash_map_find (m : HashMap) (key : HashMapKey) : Option HashMapValue :=
  (findSlot m key).map (fun j => (slotAt m j).value)

/-- Stop condition of the loop in `hash_map_insert`: the loop acts at the
first slot that is empty or holds the key. -/
def insertScan (m : HashMap) (key : HashMapKey) (j : Nat) : Bool :=
  string_empty (slotAt m j).value || (slotAt m j).key == key

/-- `hash_map_insert`: reject when the load factor is already `≥ 1`
(for a positive capacity: `capacity ≤ size`, see `load_factor_ge_one_iff`);
otherwise probe from the home slot and, at the first empty-or-matching slot,
either place the pair (empty slot: success) or report a duplicate. -/
def hash_map_insert (m : HashMap) (key : HashMapKey) (value : HashMapValue) :
    Bool × HashMap :=
  if m.capacity ≤ m.size then (false, m)
  else
    match scanIdx (fun i => insertScan m key (probeIdx m key i)) 0 m.capacity with
    | none => (false, m)
    | some i =>
      if string_empty (slotAt m (probeIdx m key i)).value then
        (true, { m with size := m.size + 1,
                        pairs := m.pairs.set (probeIdx m key i) ⟨key, value⟩ })
      else
        (false, m)

/-- `hash_map_insert_or_assign`: if `hash_map_find` succeeds, overwrite the
found slot's value in place (no load-factor check, size untouched);
otherwise delegate to `hash_map_insert`. -/
def hash_map_insert_or_assign (m : HashMap) (key : HashMapKey)
    (value : HashMapValue) : Bool × HashMap :=
  match findSlot m key with
  | none => hash_map_insert m key value
  | some j => (true, { m with pairs := m.pairs.set j ⟨(slotAt m j).key, value⟩ })

/-- `hash_map_remove`: probe exactly as `hash_map_find`; on a match, set the
slot's value to the empty value (`pair->value = (String){0}`; the key field
is left as it was) and decrement `size`. -/
def hash_map_remove (m : HashMap) (key : HashMapKey) : Bool × HashMap :=
  match findSlot m key with
  | none => (false, m)
  | some j => (true, { m with size := m.size - 1,
                              pairs := m.pairs.set j ⟨(slotAt m j).key, []⟩ })

/-- `hash_map_contains`: `hash_map_find(map, key) != NULL`. -/
def hash_map_contains (m : HashMap) (key : HashMapKey) : Bool :=
  (hash_map_find m key).isSome

/-- `hash_map_clear`: zero every slot (`key = 0`, `value = (String){0}`) and
reset `size`; the capacity is untouched. -/
def hash_map_clear (m : HashMap) : HashMap :=
  { m with size := 0, pairs := m.pairs.map (fun _ => emptyPair) }

/-- The table produced by a successful `hash_map_create_with(capacity)`:
`calloc` zero-initialises every slot. -/
def mkHashMap (capacity : Nat) : HashMap :=
  { capacity := capacity, size := 0, pairs := List.replicate capacity emptyPair }

/-- `hash_map_create_with`: `NULL` when `capacity <= 0` (as `size_t`: zero);
allocation failure is not modelled. -/
def hash_map_create_with (capacity : Nat) : Option HashMap :=
  if capacity = 0 then none else some (mkHashMap capacity)

/-- `hash_map_create`: default capacity 16. -/
def hash_map_create : Option HashMap := hash_map_create_with 16

/-- `hash_map_size`. -/
def hash_map_size (m : HashMap) : Nat := m.size

/-- `hash_map_capacity`. -/
def hash_map_capacity (m : HashMap) : Nat := m.capacity

/-- `hash_map_empty`: `map->size == 0`. -/
def hash_map_empty (m : HashMap) : Bool := m.size == 0

/-- `hash_map_load_factor`: the exact real value of `(double)size / capacity`
(the division is exact for every table a real process can hold). -/
def hash_map_load_factor (m : HashMap) : ℚ := (m.size : ℚ) / (m.capacity : ℚ)

/-- Occupancy of slot `j`: `!string_empty(&pair->value)`. -/
def occupiedAt (m : HashMap) (j : Nat) : Bool := !string_empty (slotAt m j).value

/-- `hash_map_first`: scan slots `0, 1, …, capacity - 1` and return the first
occupied one (as its index; the C function returns its address), else `NULL`. -/
def hash_map_first (m : HashMap) : Option Nat :=
  scanIdx (fun j => occupiedAt m j) 0 m.capacity

/-- Downward variant of `scanIdx` for `hash_map_last`. -/
def scanIdxDown (p : Nat → Bool) : Nat → Nat → Option Nat
  | _, 0 => none
  | i, fuel + 1 => if p i then some i else scanIdxDown p (i - 1) fuel

/-- `hash_map_last`: scan slots `capacity - 1, …, 0` and return the first
occupied one, else `NULL`. -/
def hash_map_last (m : HashMap) : Option Nat :=
  scanIdxDown (fun j => occupiedAt m j) (m.capacity - 1) m.capacity

/-- `hash_map_next_pair`: `NULL` on `NULL` input; otherwise scan the
`capacity - 1` slots after slot `j` (wrapping at the array end) and return
the first occupied one, else `NULL`. -/
def hash_map_next_pair (m : HashMap) (pair : Option Nat) : Option Nat :=
  match pair with
  | none => none
  | some j =>
    (scanIdx (fun i => occupiedAt m ((j + i) % m.capacity)) 1 (m.capacity - 1)).map
      (fun i => (j + i) % m.capacity)

/-- The chain `first, next(first), next(next(first)), …` used to traverse
the table. -/
def hash_map_iter (m : HashMap) : Nat → Option Nat
  | 0 => hash_map_first m
  | n + 1 => hash_map_next_pair m (hash_map_iter m n)

/-- The occupied slot indices, in increasing slot order. -/
def occupiedIdx (m : HashMap) : List Nat :=
  (List.range m.capacity).filter (fun j => occupiedAt m j)

/-- Number of occupied (non-empty-valued) slots of the table. -/
def occupiedCount (m : HashMap) : Nat := (occupiedIdx m).length

/-- States reachable from a freshly created map by the four mutating
operations, restricted to non-empty inserted/assigned values (an empty
inserted value is indistinguishable from an empty slot, see
`size_ne_occupied_cex`). -/
inductive ReachableNE : HashMap → Prop where
  | create : ∀ c : Nat, c ≠ 0 → ReachableNE (mkHashMap c)
  | insert : ∀ (m : HashMap) (k : HashMapKey) (v : HashMapValue),
      ReachableNE m → v ≠ [] → ReachableNE (hash_map_insert m k v).2
  | insert_or_assign : ∀ (m : HashMap) (k : HashMapKey) (v : HashMapValue),
      ReachableNE m → v ≠ [] → ReachableNE (hash_map_insert_or_assign m k v).2
  | remove : ∀ (m : HashMap) (k : HashMapKey),
      ReachableNE m → ReachableNE (hash_map_remove m k).2
  | clear : ∀ m : HashMap, ReachableNE m → ReachableNE (hash_map_clear m)

/-- Structural well-formedness plus the size/occupancy accounting that every
`ReachableNE` state satisfies. -/
def MapInv (m : HashMap) : Prop :=
  m.pairs.length = m.capacity ∧ 0 < m.capacity ∧
    m.size = occupiedCount m ∧ m.size ≤ m.capacity

theorem string_empty_iff {v : HashMapValue} : string_empty v = true ↔ v = [] := by
  cases v <;> simp [string_empty]

theorem string_empty_eq_false_iff {v : HashMapValue} :
    string_empty v = false ↔ v ≠ [] := by
  cases v <;> simp [string_empty]

theorem scanIdx_eq_none_iff {p : Nat → Bool} {i f : Nat} :
    scanIdx p i f = none ↔ ∀ t, i ≤ t → t < i + f → p t = false := by
  induction f generalizing i with
  | zero => simp [scanIdx]; omega
  | succ f ih =>
    by_cases hp : p i
    · simp only [scanIdx, hp, if_true]
      constructor
      · intro h; exact absurd h (by simp)
      · intro h; exact absurd (h i le_rfl (by omega)) (by simp [hp])
    · simp only [scanIdx, hp, if_false, Bool.false_eq_true, ih]
      constructor
      · intro h t ht1 ht2
        rcases Nat.eq_or_lt_of_le ht1 with rfl | ht1
        · exact Bool.eq_false_iff.mpr hp
        · exact h t ht1 (by omega)
      · intro h t ht1 ht2; exact h t (by omega) (by omega)

theorem scanIdx_eq_some_iff {p : Nat → Bool} {i f r : Nat} :
    scanIdx p i f = some r ↔
      i ≤ r ∧ r < i + f ∧ p r = true ∧ ∀ t, i ≤ t → t < r → p t = false := by
  induction f generalizing i with
  | zero => simp [scanIdx]; omega
  | succ f ih =>
    by_cases hp : p i
    · simp only [scanIdx, hp, if_true, Option.some.injEq]
      constructor
      · rintro rfl
        exact ⟨le_rfl, by omega, hp, fun t ht1 ht2 => by omega⟩
      · rintro ⟨h1, _, _, h4⟩
        rcases Nat.eq_or_lt_of_le h1 with rfl | h1
        · rfl
        · exact absurd (h4 i le_rfl h1) (by simp [hp])
    · simp only [scanIdx, hp, if_false, Bool.false_eq_true, ih]
      constructor
      · rintro ⟨h1, h2, h3, h4⟩
        refine ⟨by omega, by omega, h3, fun t ht1 ht2 => ?_⟩
        rcases Nat.eq_or_lt_of_le ht1 with rfl | ht1
        · exact Bool.eq_false_iff.mpr hp
        · exact h4 t ht1 ht2
      · rintro ⟨h1, h2, h3, h4⟩
        have : i ≠ r := by
          rintro rfl; exact hp (by simpa using h3)
        exact ⟨by omega, by omega, h3, fun t ht1 ht2 => h4 t (by omega) ht2⟩

theorem scanIdx_congr {p q : Nat → Bool} {i f : Nat}
    (h : ∀ t, i ≤ t → t < i + f → p t = q t) :
    scanIdx p i f = scanIdx q i f := by
  induction f generalizing i with
  | zero => rfl
  | succ f ih =>
    have hi : p i = q i := h i le_rfl (by omega)
    simp only [scanIdx, hi]
    by_cases hq : q i
    · simp [hq]
    · simp only [hq, if_false]
      exact ih (fun t ht1 ht2 => h t (by omega) (by omega))

theorem getD_set_self {α : Type} (l : List α) (j : Nat) (x d : α)
    (h : j < l.length) : (l.set j x).getD j d = x := by
  induction l generalizing j with
  | nil => simp at h
  | cons a l ih =>
    cases j with
    | zero => rfl
    | succ j => exact ih j (by simpa using h)

theorem getD_set_ne {α : Type} (l : List α) (j j' : Nat) (x d : α)
    (h : j ≠ j') : (l.set j x).getD j' d = l.getD j' d := by
  induction l generalizing j j' with
  | nil => simp
  | cons a l ih =>
    cases j with
    | zero =>
      cases j' with
      | zero => exact absurd rfl h
      | succ j' => rfl
    | succ j =>
      cases j' with
      | zero => rfl
      | succ j' => exact ih j j' (by omega)

theorem getD_replicate {α : Type} (n j : Nat) (d : α) :
    (List.replicate n d).getD j d = d := by
  induction n generalizing j with
  | zero => simp
  | succ n ih =>
    cases j with
    | zero => rfl
    | succ j => exact ih j

theorem getD_map_const {α β : Type} (l : List α) (j : Nat) (c : β) :
    (l.map (fun _ => c)).getD j c = c := by
  induction l generalizing j with
  | nil => simp
  | cons a l ih =>
    cases j with
    | zero => rfl
    | succ j => exact ih j

theorem probeIdx_lt (m : HashMap) (key : HashMapKey) (i : Nat)
    (h : 0 < m.capacity) : probeIdx m key i < m.capacity :=
  Nat.mod_lt _ h

theorem probeIdx_inj (m : HashMap) (key : HashMapKey) {i i' : Nat}
    (hi : i < m.capacity) (hi' : i' < m.capacity)
    (he : probeIdx m key i = probeIdx m key i') : i = i' := by
  have hcap : 0 < m.capacity := by omega
  have h1 : Nat.ModEq m.capacity (hash_map_hash m key + i) (hash_map_hash m key + i') := he
  have h2 : Nat.ModEq m.capacity i i' := Nat.ModEq.add_left_cancel' _ h1
  have h3 : i % m.capacity = i' % m.capacity := h2
  rwa [Nat.mod_eq_of_lt hi, Nat.mod_eq_of_lt hi'] at h3

theorem probeIdx_surj (m : HashMap) (key : HashMapKey) {j : Nat}
    (hj : j < m.capacity) : ∃ i, i < m.capacity ∧ probeIdx m key i = j := by
  have hcap : 0 < m.capacity := by omega
  set home := hash_map_hash m key with hh
  set r := home % m.capacity with hr
  have hrlt : r < m.capacity := Nat.mod_lt _ hcap
  refine ⟨(m.capacity - r + j) % m.capacity, Nat.mod_lt _ hcap, ?_⟩
  show (home + (m.capacity - r + j) % m.capacity) % m.capacity = j
  have e1 : Nat.ModEq m.capacity ((m.capacity - r + j) % m.capacity)
      (m.capacity - r + j) := Nat.mod_modEq _ _
  have e2 : Nat.ModEq m.capacity (home + (m.capacity - r + j) % m.capacity)
      (home + (m.capacity - r + j)) := Nat.ModEq.add_left _ e1
  have e3 : Nat.ModEq m.capacity home r := (Nat.mod_modEq home m.capacity).symm
  have e4 : Nat.ModEq m.capacity (home + (m.capacity - r + j))
      (r + (m.capacity - r + j)) := Nat.ModEq.add_right _ e3
  have e5 : r + (m.capacity - r + j) = m.capacity + j := by omega
  have e6 : Nat.ModEq m.capacity (m.capacity + j) j := by
    show (m.capacity + j) % m.capacity = j % m.capacity
    simp [Nat.add_mod_left]
  have := ((e2.trans e4).trans (e5 ▸ Nat.ModEq.refl _)).trans e6
  show _ % m.capacity = j
  calc (home + (m.capacity - r + j) % m.capacity) % m.capacity
      = j % m.capacity := this
    _ = j := Nat.mod_eq_of_lt hj

theorem length_filter_congr_except {l : List Nat} {j : Nat} {p q : Nat → Bool}
    (hn : l.Nodup) (hj : j ∈ l) (h : ∀ t ∈ l, t ≠ j → p t = q t) :
    (l.filter p).length + (if q j then 1 else 0) =
      (l.filter q).length + (if p j then 1 else 0) := by
  induction l with
  | nil => simp at hj
  | cons a l ih =>
    rcases List.mem_cons.mp hj with rfl | hj'
    · have hnotin : j ∉ l := (List.nodup_cons.mp hn).1
      have hfeq : l.filter p = l.filter q := by
        apply List.filter_congr
        intro t ht
        exact h t (List.mem_cons_of_mem _ ht) (fun he => hnotin (he ▸ ht))
      by_cases hp : p j <;> by_cases hq : q j <;>
        simp [List.filter_cons, hp, hq, hfeq]
    · have hne : a ≠ j := by
        rintro rfl; exact (List.nodup_cons.mp hn).1 hj'
      have hpa : p a = q a := h a (List.mem_cons_self a l) hne
      have := ih (List.nodup_cons.mp hn).2 hj'
        (fun t ht => h t (List.mem_cons_of_mem _ ht))
      by_cases hqa : q a <;>
        simp [List.filter_cons, hpa, hqa, this]
      all_goals omega

theorem findMatch_iff {m : HashMap} {k : HashMapKey} {j : Nat} :
    findMatch m k j = true ↔ (slotAt m j).key = k ∧ (slotAt m j).value ≠ [] := by
  simp [findMatch, string_empty_eq_false_iff, Bool.and_eq_true]

theorem findSlot_eq_none_iff {m : HashMap} {k : HashMapKey} :
    findSlot m k = none ↔
      ∀ t, t < m.capacity → findMatch m k (probeIdx m k t) = false := by
  simp only [findSlot, Option.map_eq_none', scanIdx_eq_none_iff, Nat.zero_add]
  exact ⟨fun h t ht => h t (Nat.zero_le t) ht, fun h t _ ht => h t ht⟩

theorem findSlot_some_elim {m : HashMap} {k : HashMapKey} {j : Nat}
    (h : findSlot m k = some j) :
    ∃ i, i < m.capacity ∧ j = probeIdx m k i ∧ findMatch m k j = true ∧
      ∀ t, t < i → findMatch m k (probeIdx m k t) = false := by
  simp only [findSlot, Option.map_eq_some'] at h
  obtain ⟨i, hi, rfl⟩ := h
  rw [scanIdx_eq_some_iff] at hi
  exact ⟨i, by omega, rfl, hi.2.2.1, fun t ht => hi.2.2.2 t (Nat.zero_le t) ht⟩

theorem findSlot_lt {m : HashMap} {k : HashMapKey} {j : Nat}
    (h : findSlot m k = some j) : j < m.capacity := by
  obtain ⟨i, hi, rfl, _⟩ := findSlot_some_elim h
  exact probeIdx_lt m k i (by omega)

theorem find_eq_none_iff {m : HashMap} {k : HashMapKey} :
    hash_map_find m k = none ↔ findSlot m k = none := by
  simp [hash_map_find, Option.map_eq_none']

theorem find_eq_some_elim {m : HashMap} {k : HashMapKey} {v : HashMapValue}
    (h : hash_map_find m k = some v) :
    ∃ j, findSlot m k = some j ∧ (slotAt m j).value = v := by
  simp only [hash_map_find, Option.map_eq_some'] at h
  exact h

theorem load_factor_ge_one_iff {m : HashMap} (h : 0 < m.capacity) :
    1 ≤ hash_map_load_factor m ↔ m.capacity ≤ m.size := by
  have hc : (0 : ℚ) < (m.capacity : ℚ) := by exact_mod_cast h
  rw [hash_map_load_factor, one_le_div hc]
  exact_mod_cast Iff.rfl

theorem insert_eq_of_empty (m : HashMap) (k : HashMapKey) (v : HashMapValue)
    (i : Nat) (h1 : ¬ m.capacity ≤ m.size)
    (h2 : scanIdx (fun t => insertScan m k (probeIdx m k t)) 0 m.capacity = some i)
    (h3 : string_empty (slotAt m (probeIdx m k i)).value = true) :
    hash_map_insert m k v =
      (true, { m with size := m.size + 1,
                      pairs := m.pairs.set (probeIdx m k i) ⟨k, v⟩ }) := by
  unfold hash_map_insert
  rw [if_neg h1, h2]
  simp [h3]

theorem insert_full_state {m : HashMap} {k : HashMapKey} {v : HashMapValue}
    (hfull : m.capacity ≤ m.size) : hash_map_insert m k v = (false, m) := by
  unfold hash_map_insert
  rw [if_pos hfull]

theorem insert_eq_of_scan_nonempty {m : HashMap} {k : HashMapKey}
    {v : HashMapValue} {i : Nat} (h1 : ¬ m.capacity ≤ m.size)
    (h2 : scanIdx (fun t => insertScan m k (probeIdx m k t)) 0 m.capacity = some i)
    (h3 : string_empty (slotAt m (probeIdx m k i)).value = false) :
    hash_map_insert m k v = (false, m) := by
  unfold hash_map_insert
  rw [if_neg h1, h2]
  simp [h3]

theorem insert_true_elim {m : HashMap} {k : HashMapKey} {v : HashMapValue}
    (h : (hash_map_insert m k v).1 = true) :
    ¬ m.capacity ≤ m.size ∧
      ∃ i, scanIdx (fun t => insertScan m k (probeIdx m k t)) 0 m.capacity = some i ∧
        string_empty (slotAt m (probeIdx m k i)).value = true := by
  unfold hash_map_insert at h
  by_cases h1 : m.capacity ≤ m.size
  · rw [if_pos h1] at h
    exact absurd h (by simp)
  · rw [if_neg h1] at h
    refine ⟨h1, ?_⟩
    rcases hscan : scanIdx (fun t => insertScan m k (probeIdx m k t)) 0 m.capacity
      with _ | i
    · rw [hscan] at h
      simp at h
    · rw [hscan] at h
      by_cases h3 : string_empty (slotAt m (probeIdx m k i)).value
      · exact ⟨i, rfl, h3⟩
      · simp [h3] at h

theorem insert_false_state {m : HashMap} {k : HashMapKey} {v : HashMapValue}
    (h : (hash_map_insert m k v).1 = false) : (hash_map_insert m k v).2 = m := by
  unfold hash_map_insert at h ⊢
  by_cases h1 : m.capacity ≤ m.size
  · rw [if_pos h1]
  · rw [if_neg h1] at h ⊢
    rcases hscan : scanIdx (fun t => insertScan m k (probeIdx m k t)) 0 m.capacity
      with _ | i
    · rfl
    · rw [hscan] at h
      by_cases h3 : string_empty (slotAt m (probeIdx m k i)).value
      · simp [h3] at h
      · simp [h3]

theorem findSlot_eq_some_intro {m : HashMap} {k : HashMapKey} {i : Nat}
    (hilt : i < m.capacity)
    (hmatch : findMatch m k (probeIdx m k i) = true)
    (hmin : ∀ t, t < i → findMatch m k (probeIdx m k t) = false) :
    findSlot m k = some (probeIdx m k i) := by
  have hscan : scanIdx (fun t => findMatch m k (probeIdx m k t)) 0 m.capacity =
      some i := by
    rw [scanIdx_eq_some_iff]
    exact ⟨Nat.zero_le i, by omega, hmatch, fun t _ ht => hmin t ht⟩
  simp [findSlot, hscan]

theorem findSlot_set_insert {m m' : HashMap} {k : HashMapKey} {v : HashMapValue}
    {i : Nat} (hlen : m.pairs.length = m.capacity) (hv : v ≠ [])
    (hilt : i < m.capacity)
    (hmin : ∀ t, t < i → insertScan m k (probeIdx m k t) = false)
    (hcap : m'.capacity = m.capacity)
    (hpairs : m'.pairs = m.pairs.set (probeIdx m k i) ⟨k, v⟩) :
    findSlot m' k = some (probeIdx m k i) := by
  have hcap0 : 0 < m.capacity := by omega
  have hjlt : probeIdx m k i < m.capacity := probeIdx_lt m k i hcap0
  have hprobe : ∀ t, probeIdx m' k t = probeIdx m k t := by
    intro t
    simp [probeIdx, hash_map_hash, hcap]
  have hs1 : slotAt m' (probeIdx m k i) = ⟨k, v⟩ := by
    rw [slotAt, hpairs]
    exact getD_set_self m.pairs (probeIdx m k i) ⟨k, v⟩ emptyPair (by omega)
  have hmatch : findMatch m' k (probeIdx m' k i) = true := by
    rw [hprobe i, findMatch_iff, hs1]
    exact ⟨rfl, hv⟩
  have hminm : ∀ t, t < i → findMatch m' k (probeIdx m' k t) = false := by
    intro t ht
    have htlt : t < m.capacity := by omega
    have hne : probeIdx m k i ≠ probeIdx m k t := fun he =>
      absurd (probeIdx_inj m k hilt htlt he) (by omega)
    have hs2 : slotAt m' (probeIdx m k t) = slotAt m (probeIdx m k t) := by
      rw [slotAt, hpairs]
      exact getD_set_ne m.pairs (probeIdx m k i) (probeIdx m k t) ⟨k, v⟩ emptyPair hne
    have hins := hmin t ht
    simp only [insertScan, Bool.or_eq_false_iff] at hins
    rw [hprobe t]
    simp only [findMatch, hs2, hins.2, Bool.false_and]
  have hres := findSlot_eq_some_intro (m := m') (k := k) (i := i)
    (by omega) hmatch hminm
  rw [hprobe i] at hres
  exact hres

theorem insert_true_parts {m : HashMap} {k : HashMapKey} {v : HashMapValue}
    (h : (hash_map_insert m k v).1 = true) :
    ∃ i, i < m.capacity ∧
      string_empty (slotAt m (probeIdx m k i)).value = true ∧
      (∀ t, t < i → insertScan m k (probeIdx m k t) = false) ∧
      (hash_map_insert m k v).2.capacity = m.capacity ∧
      (hash_map_insert m k v).2.size = m.size + 1 ∧
      (hash_map_insert m k v).2.pairs = m.pairs.set (probeIdx m k i) ⟨k, v⟩ ∧
      m.size < m.capacity := by
  obtain ⟨h1, i, hscan, h3⟩ := insert_true_elim h
  have hspec := scanIdx_eq_some_iff.mp hscan
  have hres := insert_eq_of_empty m k v i h1 hscan h3
  refine ⟨i, by omega, h3, fun t ht => hspec.2.2.2 t (Nat.zero_le t) ht, ?_, ?_, ?_, by omega⟩
  · rw [hres]
  · rw [hres]
  · rw [hres]

theorem find_after_insert {m : HashMap} {k : HashMapKey} {v : HashMapValue}
    (hlen : m.pairs.length = m.capacity) (hv : v ≠ [])
    (h : (hash_map_insert m k v).1 = true) :
    hash_map_find (hash_map_insert m k v).2 k = some v := by
  obtain ⟨i, hilt, hemp, hmin, hcap, hsz, hpairs, hlt⟩ := insert_true_parts h
  have hfs := findSlot_set_insert hlen hv hilt hmin hcap hpairs
  have hs1 : slotAt (hash_map_insert m k v).2 (probeIdx m k i) = ⟨k, v⟩ := by
    rw [slotAt, hpairs]
    exact getD_set_self m.pairs (probeIdx m k i) ⟨k, v⟩ emptyPair
      (by have := probeIdx_lt m k i (by omega); omega)
  rw [hash_map_find, hfs, Option.map_some', hs1]

theorem getD_oob {α : Type} (l : List α) (j : Nat) (d : α) (h : l.length ≤ j) :
    l.getD j d = d := by
  induction l generalizing j with
  | nil => simp
  | cons a l ih =>
    cases j with
    | zero => simp at h
    | succ j => exact ih j (by simpa using h)

theorem set_oob {α : Type} (l : List α) (j : Nat) (x : α) (h : l.length ≤ j) :
    l.set j x = l := by
  induction l generalizing j with
  | nil => simp
  | cons a l ih =>
    cases j with
    | zero => simp at h
    | succ j =>
      show a :: l.set j x = a :: l
      rw [ih j (by simpa using h)]

theorem findMatch_lt_length {m : HashMap} {k : HashMapKey} {j : Nat}
    (h : findMatch m k j = true) : j < m.pairs.length := by
  by_contra hge
  have hd : slotAt m j = emptyPair := getD_oob m.pairs j emptyPair (by omega)
  rw [findMatch_iff, hd] at h
  exact h.2 rfl

theorem occupiedAt_iff {m : HashMap} {j : Nat} :
    occupiedAt m j = true ↔ (slotAt m j).value ≠ [] := by
  simp [occupiedAt, string_empty_eq_false_iff]

theorem remove_true_elim {m : HashMap} {k : HashMapKey}
    (h : (hash_map_remove m k).1 = true) :
    ∃ j, findSlot m k = some j ∧
      (hash_map_remove m k).2.capacity = m.capacity ∧
      (hash_map_remove m k).2.size = m.size - 1 ∧
      (hash_map_remove m k).2.pairs = m.pairs.set j ⟨(slotAt m j).key, []⟩ := by
  unfold hash_map_remove at h ⊢
  rcases hfs : findSlot m k with _ | j
  · rw [hfs] at h
    simp at h
  · exact ⟨j, rfl, rfl, rfl, rfl⟩

theorem remove_false_state {m : HashMap} {k : HashMapKey}
    (h : (hash_map_remove m k).1 = false) : (hash_map_remove m k).2 = m := by
  unfold hash_map_remove at h ⊢
  rcases hfs : findSlot m k with _ | j
  · rfl
  · rw [hfs] at h
    simp at h

theorem insert_or_assign_none {m : HashMap} {k : HashMapKey} {v : HashMapValue}
    (hfs : findSlot m k = none) :
    hash_map_insert_or_assign m k v = hash_map_insert m k v := by
  unfold hash_map_insert_or_assign
  rw [hfs]

theorem insert_or_assign_some {m : HashMap} {k : HashMapKey} {v : HashMapValue}
    {j : Nat} (hfs : findSlot m k = some j) :
    hash_map_insert_or_assign m k v =
      (true, { m with pairs := m.pairs.set j ⟨(slotAt m j).key, v⟩ }) := by
  unfold hash_map_insert_or_assign
  rw [hfs]

theorem insert_or_assign_not_found {m : HashMap} {k : HashMapKey}
    {v : HashMapValue} (h : hash_map_find m k = none) :
    hash_map_insert_or_assign m k v = hash_map_insert m k v :=
  insert_or_assign_none (find_eq_none_iff.mp h)

theorem findSlot_set_assign {m m' : HashMap} {k : HashMapKey} {v : HashMapValue}
    {j : Nat} (hv : v ≠ []) (hfs : findSlot m k = some j)
    (hcap : m'.capacity = m.capacity)
    (hpairs : m'.pairs = m.pairs.set j ⟨(slotAt m j).key, v⟩) :
    findSlot m' k = some j ∧ (slotAt m' j).value = v := by
  obtain ⟨i, hilt, hj, hmatch, hmin⟩ := findSlot_some_elim hfs
  have hjlen : j < m.pairs.length := findMatch_lt_length hmatch
  have hprobe : ∀ t, probeIdx m' k t = probeIdx m k t := by
    intro t
    simp [probeIdx, hash_map_hash, hcap]
  have hs1 : slotAt m' j = ⟨(slotAt m j).key, v⟩ := by
    rw [slotAt, hpairs]
    exact getD_set_self m.pairs j ⟨(slotAt m j).key, v⟩ emptyPair hjlen
  have hkey : (slotAt m j).key = k := (findMatch_iff.mp hmatch).1
  have hmatch' : findMatch m' k (probeIdx m' k i) = true := by
    rw [hprobe i, ← hj, findMatch_iff, hs1]
    exact ⟨hkey, hv⟩
  have hmin' : ∀ t, t < i → findMatch m' k (probeIdx m' k t) = false := by
    intro t ht
    have htlt : t < m.capacity := by omega
    have hne : j ≠ probeIdx m k t := by
      rw [hj]
      exact fun he => absurd (probeIdx_inj m k hilt htlt he) (by omega)
    have hs2 : slotAt m' (probeIdx m k t) = slotAt m (probeIdx m k t) := by
      rw [slotAt, hpairs]
      exact getD_set_ne m.pairs j (probeIdx m k t) _ emptyPair hne
    rw [hprobe t]
    have hold := hmin t ht
    rw [findMatch, hs2]
    rw [findMatch] at hold
    exact hold
  have := findSlot_eq_some_intro (m := m') (k := k) (i := i) (by omega) hmatch' hmin'
  rw [hprobe i, ← hj] at this
  refine ⟨this, by rw [hs1]⟩

theorem insert_duplicate_state {m : HashMap} {k : HashMapKey}
    {v1 v2 : HashMapValue} (hlen : m.pairs.length = m.capacity) (hv1 : v1 ≠ [])
    (h : (hash_map_insert m k v1).1 = true) :
    hash_map_insert (hash_map_insert m k v1).2 k v2 =
      (false, (hash_map_insert m k v1).2) := by
  obtain ⟨i, hilt, hemp, hmin, hcap, hsz, hpairs, hlt⟩ := insert_true_parts h
  by_cases hfull : (hash_map_insert m k v1).2.capacity ≤ (hash_map_insert m k v1).2.size
  · exact insert_full_state hfull
  · have hprobe : ∀ t, probeIdx (hash_map_insert m k v1).2 k t = probeIdx m k t := by
      intro t
      simp [probeIdx, hash_map_hash, hcap]
    have hjlen : probeIdx m k i < m.pairs.length := by
      have := probeIdx_lt m k i (by omega)
      omega
    have hs1 : slotAt (hash_map_insert m k v1).2 (probeIdx m k i) = ⟨k, v1⟩ := by
      rw [slotAt, hpairs]
      exact getD_set_self m.pairs (probeIdx m k i) ⟨k, v1⟩ emptyPair hjlen
    have hscan : scanIdx
        (fun t => insertScan (hash_map_insert m k v1).2 k
          (probeIdx (hash_map_insert m k v1).2 k t)) 0
        (hash_map_insert m k v1).2.capacity = some i := by
      rw [scanIdx_eq_some_iff]
      refine ⟨Nat.zero_le i, by rw [hcap]; omega, ?_, ?_⟩
      · rw [hprobe i]
        simp [insertScan, hs1]
      · intro t _ ht
        rw [hprobe t]
        have htlt : t < m.capacity := by omega
        have hne : probeIdx m k i ≠ probeIdx m k t := fun he =>
          absurd (probeIdx_inj m k hilt htlt he) (by omega)
        have hs2 : slotAt (hash_map_insert m k v1).2 (probeIdx m k t) =
            slotAt m (probeIdx m k t) := by
          rw [slotAt, hpairs]
          exact getD_set_ne m.pairs (probeIdx m k i) (probeIdx m k t) ⟨k, v1⟩
            emptyPair hne
        have hold := hmin t ht
        rw [insertScan] at hold ⊢
        rw [hs2]
        exact hold
    have hv1e : string_empty
        (slotAt (hash_map_insert m k v1).2
          (probeIdx (hash_map_insert m k v1).2 k i)).value = false := by
      rw [hprobe i, hs1]
      exact string_empty_eq_false_iff.mpr hv1
    exact insert_eq_of_scan_nonempty hfull hscan hv1e

theorem filter_eq_nil_of_false {l : List Nat} {p : Nat → Bool}
    (h : ∀ t ∈ l, p t = false) : l.filter p = [] := by
  induction l with
  | nil => rfl
  | cons a l ih =>
    rw [List.filter_cons, h a (List.mem_cons_self a l)]
    simpa using ih (fun t ht => h t (List.mem_cons_of_mem _ ht))

theorem occupiedCount_update {m m' : HashMap} {j : Nat}
    (hcap : m'.capacity = m.capacity) (hj : j < m.capacity)
    (hs : ∀ u, u ≠ j → slotAt m' u = slotAt m u) :
    occupiedCount m + (if occupiedAt m' j then 1 else 0) =
      occupiedCount m' + (if occupiedAt m j then 1 else 0) := by
  have hidx : occupiedIdx m' =
      (List.range m.capacity).filter (fun t => occupiedAt m' t) := by
    rw [occupiedIdx, hcap]
  have h := length_filter_congr_except (l := List.range m.capacity) (j := j)
    (p := fun t => occupiedAt m t) (q := fun t => occupiedAt m' t)
    (List.nodup_range _) (List.mem_range.mpr hj)
    (fun t _ htj => by simp [occupiedAt, hs t htj])
  rw [occupiedCount, occupiedCount, hidx]
  exact h

theorem mapInv_insert {m : HashMap} (k : HashMapKey) {v : HashMapValue}
    (hm : MapInv m) (hv : v ≠ []) : MapInv (hash_map_insert m k v).2 := by
  obtain ⟨hlen, hcap0, hsz, hle⟩ := hm
  by_cases hb : (hash_map_insert m k v).1 = true
  · obtain ⟨i, hilt, hemp, hmin, hcap, hszr, hpairs, hlt⟩ := insert_true_parts hb
    have hjcap : probeIdx m k i < m.capacity := probeIdx_lt m k i (by omega)
    have hjlen : probeIdx m k i < m.pairs.length := by omega
    have hs1 : slotAt (hash_map_insert m k v).2 (probeIdx m k i) = ⟨k, v⟩ := by
      rw [slotAt, hpairs]
      exact getD_set_self m.pairs _ ⟨k, v⟩ emptyPair hjlen
    have hsne : ∀ u, u ≠ probeIdx m k i →
        slotAt (hash_map_insert m k v).2 u = slotAt m u := by
      intro u hu
      rw [slotAt, hpairs, slotAt]
      exact getD_set_ne m.pairs _ u ⟨k, v⟩ emptyPair (fun he => hu he.symm)
    have hocc := @occupiedCount_update m (hash_map_insert m k v).2
      (probeIdx m k i) hcap hjcap hsne
    have ho1 : occupiedAt (hash_map_insert m k v).2 (probeIdx m k i) = true := by
      simp [occupiedAt, hs1, string_empty_eq_false_iff.mpr hv]
    have ho0 : occupiedAt m (probeIdx m k i) = false := by
      simp [occupiedAt, hemp]
    rw [ho1, ho0] at hocc
    simp at hocc
    refine ⟨?_, ?_, ?_, ?_⟩
    · rw [hpairs, hcap, List.length_set, hlen]
    · rw [hcap]; exact hcap0
    · rw [hszr, hsz]; omega
    · rw [hszr, hcap]; omega
  · have hb' : (hash_map_insert m k v).1 = false := Bool.eq_false_iff.mpr hb
    rw [insert_false_state hb']
    exact ⟨hlen, hcap0, hsz, hle⟩

theorem mapInv_remove {m : HashMap} (k : HashMapKey) (hm : MapInv m) :
    MapInv (hash_map_remove m k).2 := by
  obtain ⟨hlen, hcap0, hsz, hle⟩ := hm
  by_cases hb : (hash_map_remove m k).1 = true
  · obtain ⟨j, hfs, hcap, hszr, hpairs⟩ := remove_true_elim hb
    obtain ⟨i0, hi0lt, hji0, hmatch, hmin0⟩ := findSlot_some_elim hfs
    have hjlen : j < m.pairs.length := findMatch_lt_length hmatch
    have hjcap : j < m.capacity := findSlot_lt hfs
    have hs1 : slotAt (hash_map_remove m k).2 j = ⟨(slotAt m j).key, []⟩ := by
      rw [slotAt, hpairs]
      exact getD_set_self m.pairs j _ emptyPair hjlen
    have hsne : ∀ u, u ≠ j → slotAt (hash_map_remove m k).2 u = slotAt m u := by
      intro u hu
      rw [slotAt, hpairs, slotAt]
      exact getD_set_ne m.pairs j u _ emptyPair (fun he => hu he.symm)
    have hocc := @occupiedCount_update m (hash_map_remove m k).2 j
      hcap hjcap hsne
    have ho1 : occupiedAt (hash_map_remove m k).2 j = false := by
      simp [occupiedAt, hs1, string_empty]
    have ho0 : occupiedAt m j = true :=
      occupiedAt_iff.mpr (findMatch_iff.mp hmatch).2
    rw [ho1, ho0] at hocc
    simp at hocc
    refine ⟨?_, ?_, ?_, ?_⟩
    · rw [hpairs, hcap, List.length_set, hlen]
    · rw [hcap]; exact hcap0
    · rw [hszr, hsz]; omega
    · rw [hszr, hcap]; omega
  · have hb' : (hash_map_remove m k).1 = false := Bool.eq_false_iff.mpr hb
    rw [remove_false_state hb']
    exact ⟨hlen, hcap0, hsz, hle⟩

theorem mapInv_insert_or_assign {m : HashMap} (k : HashMapKey) {v : HashMapValue}
    (hm : MapInv m) (hv : v ≠ []) : MapInv (hash_map_insert_or_assign m k v).2 := by
  rcases hfs : findSlot m k with _ | j
  · rw [insert_or_assign_none hfs]
    exact mapInv_insert k hm hv
  · obtain ⟨hlen, hcap0, hsz, hle⟩ := hm
    have hres := insert_or_assign_some (v := v) hfs
    obtain ⟨i0, hi0lt, hji0, hmatch, hmin0⟩ := findSlot_some_elim hfs
    have hjlen : j < m.pairs.length := findMatch_lt_length hmatch
    have hjcap : j < m.capacity := findSlot_lt hfs
    have hcap : (hash_map_insert_or_assign m k v).2.capacity = m.capacity := by
      rw [hres]
    have hszr : (hash_map_insert_or_assign m k v).2.size = m.size := by
      rw [hres]
    have hpairs : (hash_map_insert_or_assign m k v).2.pairs =
        m.pairs.set j ⟨(slotAt m j).key, v⟩ := by
      rw [hres]
    have hs1 : slotAt (hash_map_insert_or_assign m k v).2 j =
        ⟨(slotAt m j).key, v⟩ := by
      rw [slotAt, hpairs]
      exact getD_set_self m.pairs j _ emptyPair hjlen
    have hsne : ∀ u, u ≠ j →
        slotAt (hash_map_insert_or_assign m k v).2 u = slotAt m u := by
      intro u hu
      rw [slotAt, hpairs, slotAt]
      exact getD_set_ne m.pairs j u _ emptyPair (fun he => hu he.symm)
    have hocc := @occupiedCount_update m (hash_map_insert_or_assign m k v).2
      j hcap hjcap hsne
    have ho1 : occupiedAt (hash_map_insert_or_assign m k v).2 j = true := by
      simp [occupiedAt, hs1, string_empty_eq_false_iff.mpr hv]
    have ho0 : occupiedAt m j = true :=
      occupiedAt_iff.mpr (findMatch_iff.mp hmatch).2
    rw [ho1, ho0] at hocc
    simp at hocc
    refine ⟨?_, ?_, ?_, ?_⟩
    · rw [hpairs, hcap, List.length_set, hlen]
    · rw [hcap]; exact hcap0
    · rw [hszr, hsz]; omega
    · rw [hszr, hcap]; exact hle

theorem mapInv_clear {m : HashMap} (hm : MapInv m) : MapInv (hash_map_clear m) := by
  obtain ⟨hlen, hcap0, hsz, hle⟩ := hm
  have hall : ∀ u, occupiedAt (hash_map_clear m) u = false := by
    intro u
    have : slotAt (hash_map_clear m) u = emptyPair := by
      rw [slotAt, hash_map_clear]
      exact getD_map_const m.pairs u emptyPair
    simp [occupiedAt, this, emptyPair, string_empty]
  refine ⟨?_, hcap0, ?_, ?_⟩
  · rw [hash_map_clear]
    simpa using hlen
  · rw [occupiedCount, occupiedIdx,
      filter_eq_nil_of_false (fun t _ => hall t)]
    rfl
  · exact Nat.zero_le _

theorem mapInv_mkHashMap {c : Nat} (hc : c ≠ 0) : MapInv (mkHashMap c) := by
  have hall : ∀ u, occupiedAt (mkHashMap c) u = false := by
    intro u
    have : slotAt (mkHashMap c) u = emptyPair := by
      rw [slotAt, mkHashMap]
      exact getD_replicate c u emptyPair
    simp [occupiedAt, this, emptyPair, string_empty]
  refine ⟨?_, by show 0 < c; omega, ?_, Nat.zero_le _⟩
  · rw [mkHashMap]
    simp
  · rw [occupiedCount, occupiedIdx,
      filter_eq_nil_of_false (fun t _ => hall t)]
    rfl

theorem reachableNE_inv {m : HashMap} (h : ReachableNE m) : MapInv m := by
  induction h with
  | create c hc => exact mapInv_mkHashMap hc
  | insert m k v _ hv ih => exact mapInv_insert k ih hv
  | insert_or_assign m k v _ hv ih => exact mapInv_insert_or_assign k ih hv
  | remove m k _ ih => exact mapInv_remove k ih
  | clear m _ ih => exact mapInv_clear ih

theorem find_after_remove_other {m : HashMap} {k1 k2 : HashMapKey}
    (hne : k1 ≠ k2) (hrm : (hash_map_remove m k1).1 = true) :
    hash_map_find (hash_map_remove m k1).2 k2 = hash_map_find m k2 := by
  obtain ⟨j, hfs, hcap, hszr, hpairs⟩ := remove_true_elim hrm
  obtain ⟨i0, hi0lt, hji0, hmatch, hmin0⟩ := findSlot_some_elim hfs
  have hkey : (slotAt m j).key = k1 := (findMatch_iff.mp hmatch).1
  have hprobe : ∀ t, probeIdx (hash_map_remove m k1).2 k2 t = probeIdx m k2 t := by
    intro t
    simp [probeIdx, hash_map_hash, hcap]
  have hmeq : ∀ u, findMatch (hash_map_remove m k1).2 k2 u = findMatch m k2 u := by
    intro u
    by_cases hu : u = j
    · subst hu
      have h1 : findMatch m k2 u = false := by
        simp [findMatch, hkey, hne]
      have h2 : findMatch (hash_map_remove m k1).2 k2 u = false := by
        by_cases hjlen : u < m.pairs.length
        · have hs1 : slotAt (hash_map_remove m k1).2 u = ⟨(slotAt m u).key, []⟩ := by
            rw [slotAt, hpairs]
            exact getD_set_self m.pairs u _ emptyPair hjlen
          simp [findMatch, hs1, string_empty]
        · have hsame : (hash_map_remove m k1).2.pairs = m.pairs := by
            rw [hpairs]
            exact set_oob m.pairs u _ (by omega)
          have hs1 : slotAt (hash_map_remove m k1).2 u = slotAt m u := by
            rw [slotAt, hsame, slotAt]
          rw [findMatch, hs1, ← findMatch]
          exact h1
      rw [h1, h2]
    · have hs2 : slotAt (hash_map_remove m k1).2 u = slotAt m u := by
        rw [slotAt, hpairs, slotAt]
        exact getD_set_ne m.pairs j u _ emptyPair (fun he => hu he.symm)
      rw [findMatch, hs2, ← findMatch]
  have hfseq : findSlot (hash_map_remove m k1).2 k2 = findSlot m k2 := by
    rw [findSlot, findSlot, hcap]
    have hpf : probeIdx (hash_map_remove m k1).2 k2 = probeIdx m k2 := funext hprobe
    rw [hpf]
    have hscan : scanIdx (fun t => findMatch (hash_map_remove m k1).2 k2
        (probeIdx m k2 t)) 0 m.capacity =
        scanIdx (fun t => findMatch m k2 (probeIdx m k2 t)) 0 m.capacity :=
      scanIdx_congr (fun t _ _ => by rw [hmeq])
    rw [hscan]
  rcases hf2 : hash_map_find m k2 with _ | v2
  · rw [hash_map_find, hfseq, find_eq_none_iff.mp hf2]
    rfl
  · obtain ⟨u0, hu0, hval⟩ := find_eq_some_elim hf2
    obtain ⟨i1, hi1lt, hji1, humatch, hmin1⟩ := findSlot_some_elim hu0
    have hu0j : u0 ≠ j := by
      intro he
      have hk2 : (slotAt m u0).key = k2 := (findMatch_iff.mp humatch).1
      rw [he, hkey] at hk2
      exact hne hk2
    have hs : slotAt (hash_map_remove m k1).2 u0 = slotAt m u0 := by
      rw [slotAt, hpairs, slotAt]
      exact getD_set_ne m.pairs j u0 _ emptyPair (fun he => hu0j he.symm)
    rw [hash_map_find, hfseq, hu0, Option.map_some', hs, hval]

theorem contains_iff_exists {m : HashMap} {k : HashMapKey} :
    hash_map_contains m k = true ↔
      ∃ j, j < m.capacity ∧ findMatch m k j = true := by
  constructor
  · intro h
    rcases hf : hash_map_find m k with _ | v
    · rw [hash_map_contains, hf] at h
      simp at h
    · obtain ⟨j, hj, _⟩ := find_eq_some_elim hf
      obtain ⟨i, _, hji, hmatch, _⟩ := findSlot_some_elim hj
      exact ⟨j, findSlot_lt hj, hmatch⟩
  · rintro ⟨j, hjc, hmatch⟩
    rcases hfs : findSlot m k with _ | u
    · obtain ⟨i, hic, hpi⟩ := probeIdx_surj m k hjc
      have hnone := findSlot_eq_none_iff.mp hfs i hic
      rw [hpi] at hnone
      rw [hnone] at hmatch
      cases hmatch
    · simp [hash_map_contains, hash_map_find, hfs]

/-- C1 (amended): for every map whose slot array matches its capacity and
every non-empty value `v`, if `hash_map_insert m k v` returns true then
`hash_map_find` on the new state returns a value equal to `v` and
`hash_map_contains` returns true.  The restriction to non-empty `v` is
forced by `insert_empty_value_cex`: an empty inserted value is
indistinguishable from an empty slot, so `find` cannot see it. -/
theorem insert_then_find_contains (m : HashMap) (k : HashMapKey)
    (v : HashMapValue) (hlen : m.pairs.length = m.capacity) (hv : v ≠ [])
    (h : (hash_map_insert m k v).1 = true) :
    hash_map_find (hash_map_insert m k v).2 k = some v ∧
      hash_map_contains (hash_map_insert m k v).2 k = true := by
  have hf := find_after_insert hlen hv h
  refine ⟨hf, ?_⟩
  rw [hash_map_contains, hf]
  rfl

/-- C1 witness: a concrete successful insert followed by find and contains. -/
theorem insert_then_find_contains_witness :
    hash_map_find (hash_map_insert (mkHashMap 2) 1 ['a']).2 1 = some ['a'] ∧
      hash_map_contains (hash_map_insert (mkHashMap 2) 1 ['a']).2 1 = true :=
  insert_then_find_contains (mkHashMap 2) 1 ['a'] (by decide) (by decide) (by decide)

/-- C1 counterexample: inserting the empty value returns true, yet `find`
returns absent and `contains` is false immediately afterwards, refuting the
claim for every value `v`. -/
theorem insert_empty_value_cex :
    (hash_map_insert (mkHashMap 1) 5 []).1 = true ∧
      hash_map_find (hash_map_insert (mkHashMap 1) 5 []).2 5 = none ∧
      hash_map_contains (hash_map_insert (mkHashMap 1) 5 []).2 5 = false := by
  decide

/-- C2 (amended): if the key occupies at most one slot (linear-probe key
uniqueness, which removals can break, see `duplicate_keys_after_remove`),
then after a successful `hash_map_remove` the key is absent, `contains` is
false, and `size` has decreased by exactly 1.  The hypotheses
`hlen`/`hocc` hold in every reachable state (`reachableNE_inv`). -/
theorem remove_then_find_unique (m : HashMap) (k : HashMapKey)
    (hlen : m.pairs.length = m.capacity)
    (hocc : occupiedCount m ≤ m.size)
    (huniq : ∀ j1, j1 < m.capacity → ∀ j2, j2 < m.capacity →
      findMatch m k j1 = true → findMatch m k j2 = true → j1 = j2)
    (h : (hash_map_remove m k).1 = true) :
    hash_map_find (hash_map_remove m k).2 k = none ∧
      hash_map_contains (hash_map_remove m k).2 k = false ∧
      (hash_map_remove m k).2.size + 1 = m.size := by
  obtain ⟨j, hfs, hcap, hszr, hpairs⟩ := remove_true_elim h
  obtain ⟨i0, hi0lt, hji0, hmatch, hmin0⟩ := findSlot_some_elim hfs
  have hjlen : j < m.pairs.length := findMatch_lt_length hmatch
  have hjcap : j < m.capacity := findSlot_lt hfs
  have hs1 : slotAt (hash_map_remove m k).2 j = ⟨(slotAt m j).key, []⟩ := by
    rw [slotAt, hpairs]
    exact getD_set_self m.pairs j _ emptyPair hjlen
  have hfnone : findSlot (hash_map_remove m k).2 k = none := by
    rw [findSlot_eq_none_iff]
    intro t ht
    have htc : t < m.capacity := by rw [hcap] at ht; exact ht
    have hpt : probeIdx (hash_map_remove m k).2 k t = probeIdx m k t := by
      simp [probeIdx, hash_map_hash, hcap]
    rw [hpt]
    by_cases huj : probeIdx m k t = j
    · rw [huj]
      simp [findMatch, hs1, string_empty]
    · have hs2 : slotAt (hash_map_remove m k).2 (probeIdx m k t) =
          slotAt m (probeIdx m k t) := by
        rw [slotAt, hpairs, slotAt]
        exact getD_set_ne m.pairs j (probeIdx m k t) _ emptyPair
          (fun he => huj he.symm)
      rw [findMatch, hs2, ← findMatch]
      cases hx : findMatch m k (probeIdx m k t)
      · rfl
      · have hulen : probeIdx m k t < m.capacity := probeIdx_lt m k t (by omega)
        exact absurd (huniq (probeIdx m k t) hulen j hjcap hx hmatch) huj
  have hoj : occupiedAt m j = true :=
    occupiedAt_iff.mpr (findMatch_iff.mp hmatch).2
  have hmem : j ∈ occupiedIdx m := by
    rw [occupiedIdx, List.mem_filter]
    exact ⟨List.mem_range.mpr hjcap, hoj⟩
  have hpos : 0 < occupiedCount m := by
    rw [occupiedCount]
    exact List.length_pos.mpr (List.ne_nil_of_mem hmem)
  refine ⟨?_, ?_, ?_⟩
  · rw [hash_map_find, hfnone]
    rfl
  · rw [hash_map_contains, hash_map_find, hfnone]
    rfl
  · rw [hszr]
    omega

/-- C2 witness: removing the only copy of a key leaves it absent and drops
the size by one. -/
theorem remove_then_find_unique_witness :
    hash_map_find (hash_map_remove
        (hash_map_insert (mkHashMap 2) 3 ['a']).2 3).2 3 = none ∧
      hash_map_contains (hash_map_remove
        (hash_map_insert (mkHashMap 2) 3 ['a']).2 3).2 3 = false ∧
      (hash_map_remove (hash_map_insert (mkHashMap 2) 3 ['a']).2 3).2.size + 1 =
        (hash_map_insert (mkHashMap 2) 3 ['a']).2.size :=
  remove_then_find_unique (hash_map_insert (mkHashMap 2) 3 ['a']).2 3
    (by decide) (by decide) (by decide) (by decide)

/-- C2 counterexample: in the reachable state of `duplicate_keys_after_remove`
(two occupied slots both holding key 4), a successful remove of key 4 leaves
`find 4` still returning a value and `contains 4` still true. -/
theorem remove_duplicate_keys_cex :
    (hash_map_remove (hash_map_insert (hash_map_remove (hash_map_insert
        (hash_map_insert (mkHashMap 4) 0 ['a']).2 4 ['b']).2 0).2 4 ['c']).2
        4).1 = true ∧
      hash_map_find (hash_map_remove (hash_map_insert (hash_map_remove
        (hash_map_insert (hash_map_insert (mkHashMap 4) 0 ['a']).2 4
        ['b']).2 0).2 4 ['c']).2 4).2 4 = some ['b'] ∧
      hash_map_contains (hash_map_remove (hash_map_insert (hash_map_remove
        (hash_map_insert (hash_map_insert (mkHashMap 4) 0 ['a']).2 4
        ['b']).2 0).2 4 ['c']).2 4).2 4 = true := by
  decide

/-- C3 (amended): `hash_map_insert` refuses, without mutating the map,
whenever the load factor `size / capacity` is already `≥ 1` before the
insertion.  Because the check runs before the element is placed, it blocks
the `(C+1)`-th insert, not the `C`-th: the last slot CAN be filled (see
`full_check_boundary_cex`). -/
theorem insert_rejects_at_full (m : HashMap) (k : HashMapKey)
    (v : HashMapValue) (hc : 0 < m.capacity)
    (h : 1 ≤ hash_map_load_factor m) :
    hash_map_insert m k v = (false, m) :=
  insert_full_state ((load_factor_ge_one_iff hc).mp h)

/-- C3 witness: a full capacity-1 table rejects an insert unchanged. -/
theorem insert_rejects_at_full_witness :
    hash_map_insert ⟨1, 1, [⟨0, ['a']⟩]⟩ 7 ['b'] =
      (false, (⟨1, 1, [⟨0, ['a']⟩]⟩ : HashMap)) :=
  insert_rejects_at_full ⟨1, 1, [⟨0, ['a']⟩]⟩ 7 ['b'] (by decide)
    (by norm_num [hash_map_load_factor])

/-- C3 counterexample: with capacity 2, after `C - 1 = 1` successful insert
the `C`-th insert also succeeds and fills the last slot (size reaches
capacity), refuting the claim that the `C`-th insert is blocked. -/
theorem full_check_boundary_cex :
    (hash_map_insert (mkHashMap 2) 0 ['a']).1 = true ∧
      (hash_map_insert (hash_map_insert (mkHashMap 2) 0 ['a']).2 1 ['b']).1 =
        true ∧
      (hash_map_insert (hash_map_insert (mkHashMap 2) 0 ['a']).2 1
        ['b']).2.size = (mkHashMap 2).capacity := by
  decide

/-- C4: a successful removal of `k1` never hides another key `k2`: `find k2`
returns the same value as before the removal (so in particular an entry
placed later along the same probe run as the removed one is not orphaned).
This holds because `hash_map_find` never stops early at an empty slot: it
always scans up to `capacity` slots. -/
theorem remove_preserves_probe_chain (m : HashMap) (k1 k2 : HashMapKey)
    (v2 : HashMapValue) (hne : k1 ≠ k2)
    (hrm : (hash_map_remove m k1).1 = true)
    (hf : hash_map_find m k2 = some v2) :
    hash_map_find (hash_map_remove m k1).2 k2 = some v2 := by
  rw [find_after_remove_other hne hrm]
  exact hf

/-- C4 witness: keys 0 and 4 share home slot 0 of a capacity-4 table and 4
is placed later in the same run; after removing 0, key 4 is still found. -/
theorem remove_preserves_probe_chain_witness :
    hash_map_find (hash_map_remove (hash_map_insert (hash_map_insert
        (mkHashMap 4) 0 ['a']).2 4 ['b']).2 0).2 4 = some ['b'] :=
  remove_preserves_probe_chain
    (hash_map_insert (hash_map_insert (mkHashMap 4) 0 ['a']).2 4 ['b']).2
    0 4 ['b'] (by decide) (by decide) (by decide)

/-- C5 (amended): for a non-empty first value `v1`, inserting the same key
again with no intervening operation fails and performs no mutation: the
state is returned unchanged, `find` still yields `v1`, and `size` is
unchanged.  The restriction to non-empty `v1` is forced by
`duplicate_insert_empty_cex`. -/
theorem duplicate_insert_rejected (m : HashMap) (k : HashMapKey)
    (v1 v2 : HashMapValue) (hlen : m.pairs.length = m.capacity)
    (hv1 : v1 ≠ []) (h : (hash_map_insert m k v1).1 = true) :
    hash_map_insert (hash_map_insert m k v1).2 k v2 =
        (false, (hash_map_insert m k v1).2) ∧
      hash_map_find (hash_map_insert (hash_map_insert m k v1).2 k v2).2 k =
        some v1 ∧
      (hash_map_insert (hash_map_insert m k v1).2 k v2).2.size =
        (hash_map_insert m k v1).2.size := by
  have hdup := @insert_duplicate_state m k v1 v2 hlen hv1 h
  have hff := find_after_insert hlen hv1 h
  rw [hdup]
  exact ⟨rfl, hff, rfl⟩

/-- C5 witness: a concrete duplicate insert is rejected without mutation. -/
theorem duplicate_insert_rejected_witness :
    hash_map_insert (hash_map_insert (mkHashMap 2) 0 ['a']).2 0 ['b'] =
        (false, (hash_map_insert (mkHashMap 2) 0 ['a']).2) ∧
      hash_map_find (hash_map_insert (hash_map_insert (mkHashMap 2) 0
        ['a']).2 0 ['b']).2 0 = some ['a'] ∧
      (hash_map_insert (hash_map_insert (mkHashMap 2) 0 ['a']).2 0
        ['b']).2.size = (hash_map_insert (mkHashMap 2) 0 ['a']).2.size :=
  duplicate_insert_rejected (mkHashMap 2) 0 ['a'] ['b'] (by decide) (by decide)
    (by decide)

/-- C5 counterexample: after successfully inserting the empty value for key
0, a second insert of the same key succeeds and mutates the table (size
grows to 2), refuting the claim for every value. -/
theorem duplicate_insert_empty_cex :
    (hash_map_insert (mkHashMap 2) 0 []).1 = true ∧
      (hash_map_insert (hash_map_insert (mkHashMap 2) 0 []).2 0 ['x']).1 =
        true ∧
      (hash_map_insert (hash_map_insert (mkHashMap 2) 0 []).2 0
        ['x']).2.size = 2 := by
  decide

/-- C6 (amended): for a key already present, `hash_map_insert_or_assign`
with a non-empty value `v2` succeeds, overwrites the stored value in place
so that `find` yields `v2`, and leaves `size` unchanged; no load-factor
check is made, so this holds even for a full table (the witness uses one).
For an absent key `k'` the operation delegates to `hash_map_insert` (and so
can fail under the full-container rule).  The restriction to non-empty `v2`
is forced by `insert_or_assign_empty_cex`. -/
theorem insert_or_assign_overwrite (m : HashMap) (k k' : HashMapKey)
    (v2 w : HashMapValue) (hv2 : v2 ≠ [])
    (h : hash_map_find m k = some w) (h' : hash_map_find m k' = none) :
    (hash_map_insert_or_assign m k v2).1 = true ∧
      hash_map_find (hash_map_insert_or_assign m k v2).2 k = some v2 ∧
      (hash_map_insert_or_assign m k v2).2.size = m.size ∧
      hash_map_insert_or_assign m k' v2 = hash_map_insert m k' v2 := by
  obtain ⟨j, hfs, hval⟩ := find_eq_some_elim h
  have hres := insert_or_assign_some (v := v2) hfs
  have hone : (hash_map_insert_or_assign m k v2).1 = true := by rw [hres]
  have hcap : (hash_map_insert_or_assign m k v2).2.capacity = m.capacity := by
    rw [hres]
  have hpairs : (hash_map_insert_or_assign m k v2).2.pairs =
      m.pairs.set j ⟨(slotAt m j).key, v2⟩ := by
    rw [hres]
  obtain ⟨hfs', hval'⟩ := findSlot_set_assign hv2 hfs hcap hpairs
  refine ⟨hone, ?_, by rw [hres], insert_or_assign_not_found h'⟩
  rw [hash_map_find, hfs', Option.map_some', hval']

/-- C6 witness: an overwrite on a full capacity-1 table succeeds with size
unchanged, and an absent key on the same table delegates to insert. -/
theorem insert_or_assign_overwrite_witness :
    (hash_map_insert_or_assign ⟨1, 1, [⟨0, ['a']⟩]⟩ 0 ['b']).1 = true ∧
      hash_map_find (hash_map_insert_or_assign ⟨1, 1, [⟨0, ['a']⟩]⟩ 0
        ['b']).2 0 = some ['b'] ∧
      (hash_map_insert_or_assign ⟨1, 1, [⟨0, ['a']⟩]⟩ 0 ['b']).2.size =
        (⟨1, 1, [⟨0, ['a']⟩]⟩ : HashMap).size ∧
      hash_map_insert_or_assign ⟨1, 1, [⟨0, ['a']⟩]⟩ 1 ['b'] =
        hash_map_insert ⟨1, 1, [⟨0, ['a']⟩]⟩ 1 ['b'] :=
  insert_or_assign_overwrite ⟨1, 1, [⟨0, ['a']⟩]⟩ 0 1 ['b'] ['a'] (by decide)
    (by decide) (by decide)

/-- C6 counterexample: assigning the empty value to an existing key returns
success but afterwards `find` is absent rather than equal to the assigned
value, refuting the claim for every value. -/
theorem insert_or_assign_empty_cex :
    (hash_map_insert_or_assign (hash_map_insert (mkHashMap 1) 0 ['a']).2 0
        []).1 = true ∧
      hash_map_find (hash_map_insert_or_assign (hash_map_insert (mkHashMap 1)
        0 ['a']).2 0 []).2 0 = none := by
  decide

/-- C7 (amended): on a successful removal the matched slot (the one
`findSlot` stops at) has its value reset to the empty value and no other
slot of the table is modified; the slot's key field is left as it was, NOT
reset to zero (see `remove_keeps_key_cex`), and `size` is decremented. -/
theorem remove_clears_value_only (m : HashMap) (k : HashMapKey)
    (h : (hash_map_remove m k).1 = true) :
    (findSlot m k).isSome = true ∧
      (findSlot m k).getD 0 < m.capacity ∧
      (slotAt m ((findSlot m k).getD 0)).key = k ∧
      (slotAt m ((findSlot m k).getD 0)).value ≠ [] ∧
      (hash_map_remove m k).2.capacity = m.capacity ∧
      (hash_map_remove m k).2.size = m.size - 1 ∧
      (hash_map_remove m k).2.pairs =
        m.pairs.set ((findSlot m k).getD 0)
          ⟨(slotAt m ((findSlot m k).getD 0)).key, []⟩ := by
  obtain ⟨j, hfs, hcap, hszr, hpairs⟩ := remove_true_elim h
  obtain ⟨i0, hi0lt, hji0, hmatch, hmin0⟩ := findSlot_some_elim hfs
  obtain ⟨hk, hvne⟩ := findMatch_iff.mp hmatch
  rw [hfs]
  exact ⟨rfl, findSlot_lt hfs, hk, hvne, hcap, hszr, hpairs⟩

/-- C7 witness: a concrete successful removal, with the frame condition
evaluated. -/
theorem remove_clears_value_only_witness :
    (findSlot (hash_map_insert (mkHashMap 2) 1 ['a']).2 1).isSome = true ∧
      (findSlot (hash_map_insert (mkHashMap 2) 1 ['a']).2 1).getD 0 <
        (hash_map_insert (mkHashMap 2) 1 ['a']).2.capacity ∧
      (slotAt (hash_map_insert (mkHashMap 2) 1 ['a']).2
        ((findSlot (hash_map_insert (mkHashMap 2) 1 ['a']).2 1).getD 0)).key =
        1 ∧
      (slotAt (hash_map_insert (mkHashMap 2) 1 ['a']).2
        ((findSlot (hash_map_insert (mkHashMap 2) 1 ['a']).2 1).getD
          0)).value ≠ [] ∧
      (hash_map_remove (hash_map_insert (mkHashMap 2) 1 ['a']).2
        1).2.capacity = (hash_map_insert (mkHashMap 2) 1 ['a']).2.capacity ∧
      (hash_map_remove (hash_map_insert (mkHashMap 2) 1 ['a']).2 1).2.size =
        (hash_map_insert (mkHashMap 2) 1 ['a']).2.size - 1 ∧
      (hash_map_remove (hash_map_insert (mkHashMap 2) 1 ['a']).2 1).2.pairs =
        (hash_map_insert (mkHashMap 2) 1 ['a']).2.pairs.set
          ((findSlot (hash_map_insert (mkHashMap 2) 1 ['a']).2 1).getD 0)
          ⟨(slotAt (hash_map_insert (mkHashMap 2) 1 ['a']).2
            ((findSlot (hash_map_insert (mkHashMap 2) 1 ['a']).2 1).getD
              0)).key, []⟩ :=
  remove_clears_value_only (hash_map_insert (mkHashMap 2) 1 ['a']).2 1
    (by decide)

/-- C7 counterexample: after a successful removal the slot's key is still 5,
not 0, refuting "the slot's key is reset to zero". -/
theorem remove_keeps_key_cex :
    (hash_map_remove (hash_map_insert (mkHashMap 1) 5 ['a']).2 5).1 = true ∧
      (slotAt (hash_map_remove (hash_map_insert (mkHashMap 1) 5 ['a']).2
        5).2 0).key = 5 := by
  decide

/-- C9: a concrete run that makes key uniqueness fail after a removal: on a
capacity-4 table, insert key 0, insert key 4 (collides into slot 1), remove
key 0, and insert key 4 again.  Before the last insert `contains 4` is
already true, yet the insert succeeds, and afterwards slots 0 and 1 are
both occupied and both hold key 4. -/
theorem duplicate_keys_after_remove :
    hash_map_contains (hash_map_remove (hash_map_insert (hash_map_insert
        (mkHashMap 4) 0 ['a']).2 4 ['b']).2 0).2 4 = true ∧
      (hash_map_insert (hash_map_remove (hash_map_insert (hash_map_insert
        (mkHashMap 4) 0 ['a']).2 4 ['b']).2 0).2 4 ['c']).1 = true ∧
      (slotAt (hash_map_insert (hash_map_remove (hash_map_insert
        (hash_map_insert (mkHashMap 4) 0 ['a']).2 4 ['b']).2 0).2 4
        ['c']).2 0).key = 4 ∧
      occupiedAt (hash_map_insert (hash_map_remove (hash_map_insert
        (hash_map_insert (mkHashMap 4) 0 ['a']).2 4 ['b']).2 0).2 4
        ['c']).2 0 = true ∧
      (slotAt (hash_map_insert (hash_map_remove (hash_map_insert
        (hash_map_insert (mkHashMap 4) 0 ['a']).2 4 ['b']).2 0).2 4
        ['c']).2 1).key = 4 ∧
      occupiedAt (hash_map_insert (hash_map_remove (hash_map_insert
        (hash_map_insert (mkHashMap 4) 0 ['a']).2 4 ['b']).2 0).2 4
        ['c']).2 1 = true := by
  decide

/-- C10 (amended): in every state reachable by create / insert /
insert_or_assign / remove / clear with non-empty inserted values, the size
field equals the number of slots with a non-empty value, and size never
exceeds capacity.  The restriction to non-empty values is forced by
`size_ne_occupied_cex`. -/
theorem reachable_size_occupied (m : HashMap) (h : ReachableNE m) :
    m.size = occupiedCount m ∧ m.size ≤ m.capacity :=
  ⟨(reachableNE_inv h).2.2.1, (reachableNE_inv h).2.2.2⟩

/-- C10 witness: the invariant evaluated on a reachable two-step state. -/
theorem reachable_size_occupied_witness :
    (hash_map_insert (mkHashMap 4) 1 ['a']).2.size =
        occupiedCount (hash_map_insert (mkHashMap 4) 1 ['a']).2 ∧
      (hash_map_insert (mkHashMap 4) 1 ['a']).2.size ≤
        (hash_map_insert (mkHashMap 4) 1 ['a']).2.capacity :=
  reachable_size_occupied (hash_map_insert (mkHashMap 4) 1 ['a']).2
    (ReachableNE.insert (mkHashMap 4) 1 ['a']
      (ReachableNE.create 4 (by decide)) (by decide))

/-- C10 counterexample: inserting the empty value is a reachable single step
from a fresh map after which `size = 1` but no slot has a non-empty value,
refuting the unrestricted invariant. -/
theorem size_ne_occupied_cex :
    (hash_map_insert (mkHashMap 1) 0 []).1 = true ∧
      (hash_map_insert (mkHashMap 1) 0 []).2.size = 1 ∧
      occupiedCount (hash_map_insert (mkHashMap 1) 0 []).2 = 0 := by
  decide

theorem mem_occupiedIdx {m : HashMap} {j : Nat} :
    j ∈ occupiedIdx m ↔ j < m.capacity ∧ occupiedAt m j = true := by
  simp [occupiedIdx, List.mem_filter, List.mem_range]

theorem occupiedIdx_pairwise (m : HashMap) :
    (occupiedIdx m).Pairwise (· < ·) :=
  (List.pairwise_lt_range m.capacity).filter (fun j => occupiedAt m j)

theorem getD_eq_get {α : Type} (l : List α) (d : α) {i : Nat}
    (h : i < l.length) : l.getD i d = l.get ⟨i, h⟩ := by
  simp [List.getD_eq_getElem?_getD, List.getElem?_eq_getElem h]

theorem occupiedIdx_get_lt (m : HashMap)
    (i1 i2 : Fin (occupiedIdx m).length) (h : i1 < i2) :
    (occupiedIdx m).get i1 < (occupiedIdx m).get i2 :=
  List.pairwise_iff_get.mp (occupiedIdx_pairwise m) i1 i2 h

theorem occupiedIdx_get_le (m : HashMap)
    (i1 i2 : Fin (occupiedIdx m).length) (h : i1.1 ≤ i2.1) :
    (occupiedIdx m).get i1 ≤ (occupiedIdx m).get i2 := by
  rcases Nat.eq_or_lt_of_le h with he | hlt
  · have he2 : i1 = i2 := Fin.ext he
    rw [he2]
  · exact Nat.le_of_lt (occupiedIdx_get_lt m i1 i2 hlt)

theorem first_eq_get (m : HashMap) (h0 : 0 < (occupiedIdx m).length) :
    hash_map_first m = some ((occupiedIdx m).get ⟨0, h0⟩) := by
  have hmem : (occupiedIdx m).get ⟨0, h0⟩ ∈ occupiedIdx m :=
    (occupiedIdx m).get_mem 0 h0
  obtain ⟨hlt, hocc⟩ := mem_occupiedIdx.mp hmem
  rw [hash_map_first, scanIdx_eq_some_iff]
  refine ⟨Nat.zero_le _, by omega, hocc, ?_⟩
  intro u _ hu
  cases hx : occupiedAt m u
  · rfl
  · exfalso
    have humem : u ∈ occupiedIdx m := mem_occupiedIdx.mpr ⟨by omega, hx⟩
    obtain ⟨iy, hiy⟩ := List.mem_iff_get.mp humem
    have hle : (occupiedIdx m).get ⟨0, h0⟩ ≤ (occupiedIdx m).get iy :=
      occupiedIdx_get_le m ⟨0, h0⟩ iy (Nat.zero_le _)
    rw [hiy] at hle
    omega

theorem next_eq_get (m : HashMap) (ix : Nat)
    (h1 : ix + 1 < (occupiedIdx m).length) :
    hash_map_next_pair m
        (some ((occupiedIdx m).get ⟨ix, Nat.lt_of_succ_lt h1⟩)) =
      some ((occupiedIdx m).get ⟨ix + 1, h1⟩) := by
  have hixlt : ix < (occupiedIdx m).length := Nat.lt_of_succ_lt h1
  obtain ⟨halt, haocc⟩ :=
    mem_occupiedIdx.mp ((occupiedIdx m).get_mem ix hixlt)
  obtain ⟨hblt, hbocc⟩ :=
    mem_occupiedIdx.mp ((occupiedIdx m).get_mem (ix + 1) h1)
  have hab : (occupiedIdx m).get ⟨ix, hixlt⟩ <
      (occupiedIdx m).get ⟨ix + 1, h1⟩ :=
    occupiedIdx_get_lt m ⟨ix, hixlt⟩ ⟨ix + 1, h1⟩ (Nat.lt_succ_self ix)
  set a := (occupiedIdx m).get ⟨ix, hixlt⟩ with ha
  set b := (occupiedIdx m).get ⟨ix + 1, h1⟩ with hb
  have hcap0 : 0 < m.capacity := by omega
  simp only [hash_map_next_pair]
  have hscan : scanIdx (fun i => occupiedAt m ((a + i) % m.capacity)) 1
      (m.capacity - 1) = some (b - a) := by
    rw [scanIdx_eq_some_iff]
    refine ⟨by omega, by omega, ?_, ?_⟩
    · have he : a + (b - a) = b := by omega
      rw [he, Nat.mod_eq_of_lt hblt]
      exact hbocc
    · intro s hs1 hs2
      have hlt2 : a + s < m.capacity := by omega
      rw [Nat.mod_eq_of_lt hlt2]
      cases hx : occupiedAt m (a + s)
      · rfl
      · exfalso
        have hmem : a + s ∈ occupiedIdx m := mem_occupiedIdx.mpr ⟨hlt2, hx⟩
        obtain ⟨iy, hiy⟩ := List.mem_iff_get.mp hmem
        by_cases hcase : iy.1 ≤ ix
        · have hle : (occupiedIdx m).get iy ≤ a := by
            rw [ha]
            exact occupiedIdx_get_le m iy ⟨ix, hixlt⟩ hcase
          rw [hiy] at hle
          omega
        · have hge : b ≤ (occupiedIdx m).get iy := by
            rw [hb]
            exact occupiedIdx_get_le m ⟨ix + 1, h1⟩ iy (show ix + 1 ≤ iy.1 by omega)
          rw [hiy] at hge
          omega
  rw [hscan, Option.map_some']
  have he : a + (b - a) = b := by omega
  rw [he, Nat.mod_eq_of_lt hblt]

theorem iter_eq_get (m : HashMap) (i : Nat)
    (h : i < (occupiedIdx m).length) :
    hash_map_iter m i = some ((occupiedIdx m).get ⟨i, h⟩) := by
  induction i with
  | zero => exact first_eq_get m h
  | succ n ih =>
    have hn : n < (occupiedIdx m).length := Nat.lt_of_succ_lt h
    show hash_map_next_pair m (hash_map_iter m n) =
      some ((occupiedIdx m).get ⟨n + 1, h⟩)
    rw [ih hn]
    exact next_eq_get m n h

/-- C8 (amended): in every map state where `size` equals the number of
occupied slots (true of every reachable state with non-empty values, see
`reachableNE_inv`; `traversal_misses_size_cex` shows the unrestricted claim
fails), the `first`/`next` chain visits at position `i` exactly the `i`-th
occupied slot in ascending slot order, each visited slot has a non-empty
value, the set of keys of the visited slots is exactly the set of keys the
map logically contains, `next(absent) = absent`, and `next` of a slot is
absent exactly when no other slot of the single wrap-around scan is
occupied. -/
theorem traversal_complete (m : HashMap) (i : Nat) (k : HashMapKey) (j : Nat)
    (hsz : m.size = occupiedCount m) (hi : i < m.size) :
    (occupiedIdx m).length = m.size ∧
      hash_map_iter m i = some ((occupiedIdx m).getD i 0) ∧
      occupiedAt m ((occupiedIdx m).getD i 0) = true ∧
      (hash_map_contains m k = true ↔
        k ∈ (occupiedIdx m).map (fun u => (slotAt m u).key)) ∧
      hash_map_next_pair m none = none ∧
      (hash_map_next_pair m (some j) = none ↔
        ∀ s, 1 ≤ s → s < m.capacity →
          occupiedAt m ((j + s) % m.capacity) = false) := by
  have hlen : (occupiedIdx m).length = m.size := by
    rw [hsz]
    rfl
  have hilen : i < (occupiedIdx m).length := by omega
  have hgetD : (occupiedIdx m).getD i 0 = (occupiedIdx m).get ⟨i, hilen⟩ :=
    getD_eq_get _ 0 hilen
  refine ⟨hlen, ?_, ?_, ?_, rfl, ?_⟩
  · rw [hgetD]
    exact iter_eq_get m i hilen
  · rw [hgetD]
    exact (mem_occupiedIdx.mp ((occupiedIdx m).get_mem i hilen)).2
  · rw [contains_iff_exists]
    constructor
    · rintro ⟨u, hu, hmatch⟩
      obtain ⟨hk, hvne⟩ := findMatch_iff.mp hmatch
      rw [List.mem_map]
      exact ⟨u, mem_occupiedIdx.mpr ⟨hu, occupiedAt_iff.mpr hvne⟩, hk⟩
    · intro hmem
      rw [List.mem_map] at hmem
      obtain ⟨u, humem, hk⟩ := hmem
      obtain ⟨hu, hocc⟩ := mem_occupiedIdx.mp humem
      exact ⟨u, hu, findMatch_iff.mpr ⟨hk, occupiedAt_iff.mp hocc⟩⟩
  · simp only [hash_map_next_pair, Option.map_eq_none', scanIdx_eq_none_iff]
    constructor
    · intro hnone s hs1 hs2
      exact hnone s hs1 (by omega)
    · intro hall s hs1 hs2
      exact hall s hs1 (by omega)

/-- C8 witness: a capacity-4 table with colliding keys 0 and 4; the chain's
second visit is slot 1, the visited keys are exactly the contained keys, and
the `next` conjuncts are evaluated at slot 1. -/
theorem traversal_complete_witness :
    (occupiedIdx (hash_map_insert (hash_map_insert (mkHashMap 4) 0 ['a']).2 4
        ['b']).2).length =
      (hash_map_insert (hash_map_insert (mkHashMap 4) 0 ['a']).2 4
        ['b']).2.size ∧
      hash_map_iter (hash_map_insert (hash_map_insert (mkHashMap 4) 0
        ['a']).2 4 ['b']).2 1 =
        some ((occupiedIdx (hash_map_insert (hash_map_insert (mkHashMap 4) 0
          ['a']).2 4 ['b']).2).getD 1 0) ∧
      occupiedAt (hash_map_insert (hash_map_insert (mkHashMap 4) 0 ['a']).2 4
        ['b']).2
        ((occupiedIdx (hash_map_insert (hash_map_insert (mkHashMap 4) 0
          ['a']).2 4 ['b']).2).getD 1 0) = true ∧
      (hash_map_contains (hash_map_insert (hash_map_insert (mkHashMap 4) 0
        ['a']).2 4 ['b']).2 4 = true ↔
        4 ∈ (occupiedIdx (hash_map_insert (hash_map_insert (mkHashMap 4) 0
          ['a']).2 4 ['b']).2).map
          (fun u => (slotAt (hash_map_insert (hash_map_insert (mkHashMap 4) 0
            ['a']).2 4 ['b']).2 u).key)) ∧
      hash_map_next_pair (hash_map_insert (hash_map_insert (mkHashMap 4) 0
        ['a']).2 4 ['b']).2 none = none ∧
      (hash_map_next_pair (hash_map_insert (hash_map_insert (mkHashMap 4) 0
        ['a']).2 4 ['b']).2 (some 1) = none ↔
        ∀ s, 1 ≤ s →
          s < (hash_map_insert (hash_map_insert (mkHashMap 4) 0 ['a']).2 4
            ['b']).2.capacity →
          occupiedAt (hash_map_insert (hash_map_insert (mkHashMap 4) 0
            ['a']).2 4 ['b']).2
            ((1 + s) % (hash_map_insert (hash_map_insert (mkHashMap 4) 0
              ['a']).2 4 ['b']).2.capacity) = false) :=
  traversal_complete (hash_map_insert (hash_map_insert (mkHashMap 4) 0
    ['a']).2 4 ['b']).2 1 4 1 (by decide) (by decide)

/-- C8 counterexample: a reachable state (one insert of the empty value from
a fresh map) with `size = 1` where the traversal visits no slot at all:
`first` is already absent, refuting "visits exactly size slots" for every
reachable state. -/
theorem traversal_misses_size_cex :
    (hash_map_insert (mkHashMap 3) 0 []).1 = true ∧
      (hash_map_insert (mkHashMap 3) 0 []).2.size = 1 ∧
      hash_map_first (hash_map_insert (mkHashMap 3) 0 []).2 = none := by
  decide
